import Mathlib

/-!
Verification of the DfuSe driver (`src/dfuse.driver.ts`).

The driver is shallowly embedded as pure Lean functions.  JavaScript numbers
used as device addresses are modelled as `Int` (all address arithmetic in the
source stays within exact-integer range); `Math.floor` of a quotient of
integers is `Int.fdiv`.  The mutable `startAddress : number = NaN` field is
modelled as `Option Int` (`none` = `NaN`).  The absent `memoryInfo` is
`Option (List DFUseMemorySegment)`.

Device interaction: the base-driver collaborators (`this.write`,
`poll_until`, `poll_until_idle`) live outside `src/`.  Following the claims'
explicit assumptions, they are modelled as the happy path: the base write
primitive reports every requested byte as written and every poll reports
status OK.  Each observable action (DfuSe command, base write, progress or
log call) is recorded in an event trace, so theorems can count the commands
a routine issues.  The unbounded `while` loops of `erase` and `do_write` are
modelled with an explicit fuel parameter; a result of `none` means the loop
did not finish within the given fuel.
-/

/-- One contiguous address range of the device memory map
(source type `DFUseMemorySegment`). -/
structure DFUseMemorySegment where
  start : Int
  «end» : Int
  sectorSize : Int
  readable : Bool
  erasable : Bool
  writable : Bool
  deriving DecidableEq, Repr

-- The DfuSe vendor command bytes (source enum `DFUseCommands`).
namespace DFUseCommands

def GET_COMMANDS : Nat := 0x00

def SET_ADDRESS : Nat := 0x21

def ERASE_SECTOR : Nat := 0x41

end DFUseCommands

/-- The distinct `WebDFUError` throw sites of the driver, one constructor per
distinct error message. -/
inductive WebDFUError where
  /-- "No memory map information available" / "No memory map available" -/
  | noMemoryMap
  /-- "Address ... outside of memory map" (thrown by `getSectorStart` and
  `getSectorEnd` when the address resolves to no segment) -/
  | addressOutOfMap (addr : Int)
  /-- "Unknown segment" (the check in `erase`) -/
  | unknownSegment
  /-- "Don't know how to handle data of len ..." in `dfuseCommand` -/
  | unsupportedParamLength (len : Nat)
  /-- "startAddress not found" in `do_write` -/
  | startAddressNotFound
  deriving DecidableEq, Repr

/-- Observable actions of the driver, recorded in order.  `dfuseCmd c p`
records a successful `dfuseCommand(c, p, ...)` exchange (payload sent at
block index 0 followed by an OK poll); `write` records a call of the base
write primitive with the given payload bytes and block index; `progress`
records `logProgress(done, total)`; the `log*` constructors record the
logging calls. -/
inductive DfuEvent where
  | dfuseCmd (command : Nat) (param : Int)
  | write (data : List Nat) (blockIndex : Nat)
  | progress (done total : Int)
  | logInfo (msg : String)
  | logWarning (msg : String)
  | logError (msg : String)
  deriving DecidableEq, Repr

/-- The segment-scan loop of `getSegment`: first segment whose half-open
range `[start, end)` contains `addr`. -/
def findSegment (segs : List DFUseMemorySegment) (addr : Int) :
    Option DFUseMemorySegment :=
  segs.find? fun s => decide (s.start ≤ addr) && decide (addr < s.«end»)

/-- `getSegment(addr)`: throws `NoMemoryMap` when no map is loaded, else
returns the first containing segment or `null`. -/
def getSegment (memoryInfo : Option (List DFUseMemorySegment)) (addr : Int) :
    Except WebDFUError (Option DFUseMemorySegment) :=
  match memoryInfo with
  | none => .error .noMemoryMap
  | some segs => .ok (findSegment segs addr)

/-- The sector-boundary arithmetic of `getSectorStart` once the segment is
known: `segment.start + floor((addr - segment.start) / sectorSize) * sectorSize`. -/
def sectorStart (segment : DFUseMemorySegment) (addr : Int) : Int :=
  segment.start + ((addr - segment.start).fdiv segment.sectorSize) * segment.sectorSize

/-- The sector-boundary arithmetic of `getSectorEnd` once the segment is
known: `segment.start + (floor((addr - segment.start) / sectorSize) + 1) * sectorSize`. -/
def sectorEnd (segment : DFUseMemorySegment) (addr : Int) : Int :=
  segment.start + ((addr - segment.start).fdiv segment.sectorSize + 1) * segment.sectorSize

/-- `getSectorStart(addr)` with the segment argument left undefined: resolve
via `getSegment`, throw "Address ... outside of memory map" on a miss. -/
def getSectorStart (memoryInfo : Option (List DFUseMemorySegment)) (addr : Int) :
    Except WebDFUError Int :=
  match getSegment memoryInfo addr with
  | .error e => .error e
  | .ok none => .error (.addressOutOfMap addr)
  | .ok (some segment) => .ok (sectorStart segment addr)

/-- `getSectorEnd(addr)` with the default segment argument
`this.getSegment(addr)`. -/
def getSectorEnd (memoryInfo : Option (List DFUseMemorySegment)) (addr : Int) :
    Except WebDFUError Int :=
  match getSegment memoryInfo addr with
  | .error e => .error e
  | .ok none => .error (.addressOutOfMap addr)
  | .ok (some segment) => .ok (sectorEnd segment addr)

/-- The scan loop of `getMaxReadSize` with accumulator `numBytes`.  The first
branch is the containing-segment test (early `return 0` when unreadable), the
second the contiguity test (`break`, i.e. return the accumulator, when
unreadable), otherwise the segment is skipped. -/
def maxReadGo (startAddr : Int) : List DFUseMemorySegment → Int → Int
  | [], numBytes => numBytes
  | s :: rest, numBytes =>
    if s.start ≤ startAddr ∧ startAddr < s.«end» then
      if s.readable then maxReadGo startAddr rest (numBytes + (s.«end» - startAddr))
      else 0
    else if s.start = startAddr + numBytes then
      if s.readable then maxReadGo startAddr rest (numBytes + (s.«end» - s.start))
      else numBytes
    else maxReadGo startAddr rest numBytes

/-- `getMaxReadSize(startAddr)`: throws `NoMemoryMap` without a map, else
runs the scan loop starting from `numBytes = 0`. -/
def getMaxReadSize (memoryInfo : Option (List DFUseMemorySegment)) (startAddr : Int) :
    Except WebDFUError Int :=
  match memoryInfo with
  | none => .error .noMemoryMap
  | some segs => .ok (maxReadGo startAddr segs 0)

/-- Modelled from the spec: the contiguous-extension phase of
`getMaxReadSize` as the specification describes it — keep adding the length
of each subsequent segment that begins exactly at the running cursor, while
it is readable, stopping at the first non-readable or non-contiguous
segment. -/
def extendContiguous : List DFUseMemorySegment → Int → Int
  | [], _ => 0
  | s :: rest, cursor =>
    if s.start = cursor ∧ s.readable then
      (s.«end» - s.start) + extendContiguous rest s.«end»
    else 0

/-- Modelled from the spec: `getMaxReadSize` as the specification words it —
find the segment containing `startAddr` (0 if none), return 0 immediately if
it is not readable, else its remaining bytes plus the contiguous readable
extension. -/
def maxReadSizeSpec : List DFUseMemorySegment → Int → Int
  | [], _ => 0
  | s :: rest, startAddr =>
    if s.start ≤ startAddr ∧ startAddr < s.«end» then
      if s.readable then (s.«end» - startAddr) + extendContiguous rest s.«end»
      else 0
    else maxReadSizeSpec rest startAddr

/-- Little-endian byte layout of a 32-bit value, as written by
`DataView.setUint32(_, _, true)`. -/
def uint32LE (n : Nat) : List Nat :=
  [n % 256, n / 256 % 256, n / 65536 % 256, n / 16777216 % 256]

/-- Recombine four little-endian bytes into the 32-bit value they encode. -/
def uint32FromLE : List Nat → Nat
  | [b0, b1, b2, b3] => b0 + 256 * b1 + 65536 * b2 + 16777216 * b3
  | _ => 0

/-- The payload built by `dfuseCommand(command, param, len)`: one command
byte (`setUint8` truncates modulo 256) followed by the parameter as one byte
(`len = 1`) or four little-endian bytes of its 32-bit image (`len = 4`);
any other `len` throws before anything is sent to the device. -/
def dfuseCommandPayload (command : Nat) (param : Int) (len : Nat) :
    Except WebDFUError (List Nat) :=
  if len = 1 then
    .ok [command % 256, ((param % 256).toNat)]
  else if len = 4 then
    .ok (command % 256 :: uint32LE (param % 4294967296).toNat)
  else
    .error (.unsupportedParamLength len)

/-- `segment?.end ?? 0` of the erase loop. -/
def segEndD : Option DFUseMemorySegment → Int
  | none => 0
  | some s => s.«end»

/-- The `while (addr < endAddr)` loop of `erase`, with fuel.  State:
the mutable `segment`, `addr` and `bytesErased` variables plus the event
trace accumulated so far.  Each iteration re-resolves the segment when
`(segment?.end ?? 0) <= addr`, then either skips a non-erasable (or missing)
segment in one step or erases one sector (an OK `ERASE_SECTOR` exchange,
the claims' happy-path device). -/
def eraseLoop (segs : List DFUseMemorySegment) (endAddr bytesToErase : Int) :
    Nat → Option DFUseMemorySegment → Int → Int → List DfuEvent →
    Option (List DfuEvent)
  | fuel, segment, addr, bytesErased, tr =>
    if addr < endAddr then
      match fuel with
      | 0 => none
      | fuel + 1 =>
        let segment := if segEndD segment ≤ addr then findSegment segs addr else segment
        match segment with
        | some s =>
          if s.erasable then
            let sectorIndex := (addr - s.start).fdiv s.sectorSize
            let sectorAddr := s.start + sectorIndex * s.sectorSize
            eraseLoop segs endAddr bytesToErase fuel (some s)
              (sectorAddr + s.sectorSize) (bytesErased + s.sectorSize)
              (tr ++ [.dfuseCmd DFUseCommands.ERASE_SECTOR sectorAddr,
                      .progress (bytesErased + s.sectorSize) bytesToErase])
          else
            let bytesErased := min (bytesErased + (s.«end» - addr)) bytesToErase
            eraseLoop segs endAddr bytesToErase fuel (some s) s.«end» bytesErased
              (tr ++ [.progress bytesErased bytesToErase])
        | none =>
          let bytesErased := min (bytesErased + (0 - addr)) bytesToErase
          eraseLoop segs endAddr bytesToErase fuel none 0 bytesErased
            (tr ++ [.progress bytesErased bytesToErase])
    else some tr

/-- `erase(startAddr, length)`.  `getSegment` may throw `NoMemoryMap`;
`getSectorStart(startAddr, segment)` is called with the (possibly `null`)
segment passed explicitly, so on a miss it throws "Address ... outside of
memory map" — the later `if (!segment) throw "Unknown segment"` check is
unreachable.  `getSectorEnd(startAddr + length - 1)` re-resolves and can
throw the same address error for the last byte.  Returns `none` when the
loop exceeds its fuel, otherwise the thrown error or the event trace. -/
def erase (memoryInfo : Option (List DFUseMemorySegment))
    (startAddr length : Int) (fuel : Nat) :
    Option (Except WebDFUError (List DfuEvent)) :=
  match memoryInfo with
  | none => some (.error .noMemoryMap)
  | some segs =>
    match findSegment segs startAddr with
    | none => some (.error (.addressOutOfMap startAddr))
    | some segment =>
      let addr := sectorStart segment startAddr
      match findSegment segs (startAddr + length - 1) with
      | none => some (.error (.addressOutOfMap (startAddr + length - 1)))
      | some endSegment =>
        let endAddr := sectorEnd endSegment (startAddr + length - 1)
        let bytesToErase := endAddr - addr
        let tr0 : List DfuEvent :=
          if bytesToErase > 0 then [.progress 0 bytesToErase] else []
        match eraseLoop segs endAddr bytesToErase fuel (some segment) addr 0 tr0 with
        | none => none
        | some tr => some (.ok tr)

/-- The chunk loop of `do_write`, with fuel.  Each iteration issues
`SET_ADDRESS` for the cursor, sends the next slice of the image at block
index 2, polls until download-idle (OK under the claims' happy-path device,
with every requested byte reported written), advances the address cursor by
the requested chunk size and the byte counter by the bytes written, and
reports progress. -/
def writeLoop (data : List Nat) (xfer_size expected_size : Nat) :
    Nat → Nat → Int → List DfuEvent → Option (List DfuEvent)
  | fuel, bytes_sent, address, tr =>
    if bytes_sent < expected_size then
      match fuel with
      | 0 => none
      | fuel + 1 =>
        let bytes_left := expected_size - bytes_sent
        let chunk_size := min bytes_left xfer_size
        let chunk := (data.drop bytes_sent).take chunk_size
        let bytes_written := chunk.length
        writeLoop data xfer_size expected_size fuel (bytes_sent + bytes_written)
          (address + (chunk_size : Int))
          (tr ++ [.dfuseCmd DFUseCommands.SET_ADDRESS address,
                  .write chunk 2,
                  .progress ((bytes_sent + bytes_written : Nat) : Int) (expected_size : Int)])
    else some tr

/-- The start-address resolution step of `do_write`: the session override if
it is not `NaN` (logging an error, but proceeding, when it lies outside the
map), else the first segment's start — which, being tested with the
JavaScript falsiness check `if (!startAddress)`, throws "startAddress not
found" not only for an empty segment list but also when the first segment
starts at address 0. -/
def resolveStartAddress (segs : List DFUseMemorySegment)
    (startAddress : Option Int) : Except WebDFUError (Int × List DfuEvent) :=
  match startAddress with
  | none =>
    match segs with
    | [] => .error .startAddressNotFound
    | s0 :: _ =>
      if s0.start = 0 then .error .startAddressNotFound
      else .ok (s0.start, [.logWarning "Using inferred start address"])
  | some a =>
    match findSegment segs a with
    | none => .ok (a, [.logError "Start address outside of memory map bounds"])
    | some _ => .ok (a, [])

/-- `do_write` after the memory-map check and start-address resolution:
erase the image's range, run the chunk loop, then manifest (one more
`SET_ADDRESS` at the original start address and a zero-length write at
block index 0; the trailing manifest poll succeeds under the happy-path
device and its failure would only be logged). -/
def do_write_core (segs : List DFUseMemorySegment) (startAddress : Int)
    (resolveTrace : List DfuEvent) (xfer_size : Nat) (data : List Nat)
    (eraseFuel writeFuel : Nat) : Option (Except WebDFUError (List DfuEvent)) :=
  match erase (some segs) startAddress (data.length : Int) eraseFuel with
  | none => none
  | some (.error e) => some (.error e)
  | some (.ok eraseTr) =>
    let tr := [DfuEvent.logInfo "Erasing DFU device memory"] ++ resolveTrace ++
      eraseTr ++ [.logInfo "Copying data from browser to DFU device"]
    match writeLoop data xfer_size data.length writeFuel 0 startAddress tr with
    | none => none
    | some tr =>
      some (.ok (tr ++ [.logInfo "Wrote bytes", .logInfo "Manifesting new firmware",
        .dfuseCmd DFUseCommands.SET_ADDRESS startAddress, .write [] 0]))

/-- `do_write(xfer_size, data)`: memory-map check, start-address resolution,
then erase / chunked copy / manifestation. -/
def do_write (memoryInfo : Option (List DFUseMemorySegment))
    (startAddress : Option Int) (xfer_size : Nat) (data : List Nat)
    (eraseFuel writeFuel : Nat) : Option (Except WebDFUError (List DfuEvent)) :=
  match memoryInfo with
  | none => some (.error .noMemoryMap)
  | some segs =>
    match resolveStartAddress segs startAddress with
    | .error e => some (.error e)
    | .ok (addr, resolveTrace) =>
      do_write_core segs addr resolveTrace xfer_size data eraseFuel writeFuel

/-- Number of `ERASE_SECTOR` command exchanges in a trace. -/
def countEraseCmds (tr : List DfuEvent) : Nat :=
  tr.countP fun e =>
    match e with
    | .dfuseCmd c _ => c == DFUseCommands.ERASE_SECTOR
    | _ => false

/-- Every `ERASE_SECTOR` command in the trace targets an address inside an
erasable segment of the map. -/
def erasesOnlyErasable (segs : List DFUseMemorySegment) (tr : List DfuEvent) : Bool :=
  tr.all fun e =>
    match e with
    | .dfuseCmd c a =>
      c != DFUseCommands.ERASE_SECTOR ||
        segs.any fun s =>
          s.erasable && decide (s.start ≤ a) && decide (a < s.«end»)
    | _ => true

/-- The cumulative value of the last `progress` event of a trace. -/
def finalProgress (tr : List DfuEvent) : Option Int :=
  tr.reverse.findSome? fun e =>
    match e with
    | .progress done _ => some done
    | _ => none

/-- Extract the event trace of a completed, non-throwing run. -/
def resultTrace : Option (Except WebDFUError (List DfuEvent)) → Option (List DfuEvent)
  | some (.ok tr) => some tr
  | _ => none

/-- One segment's contribution to the expected `ERASE_SECTOR` count over
the span `[a, e)`: the number of whole sectors of an erasable segment
covered by the overlap (the overlap boundaries are sector-aligned in every
use below); non-erasable segments contribute 0. -/
def eraseTerm (a e : Int) (s : DFUseMemorySegment) : Nat :=
  if s.erasable then ((min e s.«end» - max a s.start) / s.sectorSize).toNat else 0

/-- The number of whole sectors of erasable segments covered by the
sector-aligned span `[a, e)`. -/
def expectedEraseCount (segs : List DFUseMemorySegment) (a e : Int) : Nat :=
  (segs.map (eraseTerm a e)).sum

/-! ### Concrete memory maps used to instantiate the theorems -/

/-- A single writable/erasable segment `[256, 512)` with one 256-byte sector. -/
def wSeg1 : DFUseMemorySegment := ⟨256, 512, 256, true, true, true⟩

/-- A one-segment map. -/
def wMap1 : List DFUseMemorySegment := [wSeg1]

/-- Two sorted, non-overlapping segments with a gap `[16, 32)` between them. -/
def gapMap : List DFUseMemorySegment :=
  [⟨0, 16, 16, true, true, true⟩, ⟨32, 48, 16, true, true, true⟩]

/-- Two contiguous erasable segments where the first segment's length 24 is
not a multiple of its sector size 16. -/
def ovMap : List DFUseMemorySegment :=
  [⟨0, 24, 16, true, true, true⟩, ⟨24, 40, 16, true, true, true⟩]

/-- A non-erasable, readable segment `[0, 32)` with sector size 16. -/
def neSeg1 : DFUseMemorySegment := ⟨0, 32, 16, true, false, true⟩

/-- An erasable, readable segment `[32, 96)` with sector size 16. -/
def neSeg2 : DFUseMemorySegment := ⟨32, 96, 16, true, true, true⟩

/-- A non-erasable segment `[0, 32)` followed by an erasable segment
`[32, 96)`, both with sector size 16. -/
def neMap : List DFUseMemorySegment := [neSeg1, neSeg2]

/-- A one-segment map whose first segment starts at address 0. -/
def zeroMap : List DFUseMemorySegment := [⟨0, 16, 16, true, true, true⟩]

/-- A one-segment map `[32, 64)`; addresses below 32 lie outside it. -/
def outMap : List DFUseMemorySegment := [⟨32, 64, 16, true, true, true⟩]

/-- The events the copy loop of `do_write` emits for one chunk: `addr` is
the address cursor when `i` chunks have already been sent, `j` counts the
chunks sent from there on.  The `SET_ADDRESS` parameter is `addr + j*C` and
the transfer carries image bytes `[(i+j)*C, min((i+j+1)*C, N))` at block
index 2. -/
def chunkEvents (data : List Nat) (C N : Nat) (addr : Int) (i j : Nat) :
    List DfuEvent :=
  [DfuEvent.dfuseCmd DFUseCommands.SET_ADDRESS (addr + ((j * C : Nat) : Int)),
   DfuEvent.write ((data.drop ((i + j) * C)).take (min (N - (i + j) * C) C)) 2,
   DfuEvent.progress ((min ((i + j + 1) * C) N : Nat) : Int) (N : Int)]

/-! ### Basic facts about segment lookup and sector arithmetic -/

/-- The memory-map invariant of the data model: segments are non-overlapping
and sorted by `start` ascending. -/
def SortedSegments (segs : List DFUseMemorySegment) : Prop :=
  segs.Pairwise fun u v => u.«end» ≤ v.start

instance (segs : List DFUseMemorySegment) : Decidable (SortedSegments segs) :=
  List.instDecidablePairwise segs

theorem findSegment_eq_some {segs : List DFUseMemorySegment} {a : Int}
    {s : DFUseMemorySegment} (h : findSegment segs a = some s) :
    s ∈ segs ∧ s.start ≤ a ∧ a < s.«end» := by
  have hmem := List.mem_of_find?_eq_some h
  have hp := List.find?_some h
  simp only [Bool.and_eq_true, decide_eq_true_eq] at hp
  exact ⟨hmem, hp.1, hp.2⟩

theorem findSegment_of_mem {segs : List DFUseMemorySegment} {a : Int}
    {s : DFUseMemorySegment} (hpw : SortedSegments segs) (hmem : s ∈ segs)
    (hlo : s.start ≤ a) (hhi : a < s.«end») : findSegment segs a = some s := by
  induction segs with
  | nil => cases hmem
  | cons u rest ih =>
    rcases List.mem_cons.mp hmem with h | h
    · subst h
      simp [findSegment, List.find?, hlo, hhi]
    · have hrel : u.«end» ≤ s.start := (List.pairwise_cons.mp hpw).1 s h
      have hnot : ¬(a < u.«end») := by omega
      simp only [findSegment, List.find?]
      have hcheck : (decide (u.start ≤ a) && decide (a < u.«end»)) = false := by
        simp [hnot]
      rw [hcheck]
      exact ih (List.pairwise_cons.mp hpw).2 h

theorem findSegment_eq_none_iff {segs : List DFUseMemorySegment} {a : Int} :
    findSegment segs a = none ↔ ∀ s ∈ segs, ¬(s.start ≤ a ∧ a < s.«end») := by
  simp [findSegment, List.find?_eq_none, not_and, and_imp]

theorem containing_unique {segs : List DFUseMemorySegment} {a : Int}
    {s t : DFUseMemorySegment} (hpw : SortedSegments segs)
    (hs : s ∈ segs) (ht : t ∈ segs)
    (hs1 : s.start ≤ a) (hs2 : a < s.«end»)
    (ht1 : t.start ≤ a) (ht2 : a < t.«end») : s = t := by
  have h1 := findSegment_of_mem hpw hs hs1 hs2
  have h2 := findSegment_of_mem hpw ht ht1 ht2
  rw [h1] at h2
  exact Option.some.inj h2

theorem sectorStart_bounds (s : DFUseMemorySegment) (a : Int)
    (hss : 0 < s.sectorSize) (hlo : s.start ≤ a) :
    sectorStart s a ≤ a ∧ a < sectorStart s a + s.sectorSize ∧
    sectorEnd s a = sectorStart s a + s.sectorSize ∧
    s.start ≤ sectorStart s a ∧
    s.sectorSize ∣ (sectorStart s a - s.start) := by
  have hb : s.sectorSize ≠ 0 := ne_of_gt hss
  have hfd : (a - s.start).fdiv s.sectorSize = (a - s.start) / s.sectorSize :=
    Int.fdiv_eq_ediv _ (le_of_lt hss)
  have h1 := Int.ediv_add_emod (a - s.start) s.sectorSize
  have h2 := Int.emod_nonneg (a - s.start) hb
  have h3 := Int.emod_lt_of_pos (a - s.start) hss
  have hq : 0 ≤ (a - s.start) / s.sectorSize :=
    Int.ediv_nonneg (by omega) (le_of_lt hss)
  unfold sectorStart sectorEnd
  rw [hfd]
  refine ⟨by nlinarith, by nlinarith, by ring, ?_, ⟨(a - s.start) / s.sectorSize, by ring⟩⟩
  nlinarith

/-- Alignment pins the sector base: if `addr` lies at a whole number of
sectors above `segment.start`, the sector containing `addr` starts at `addr`
itself. -/
theorem sectorStart_of_aligned (s : DFUseMemorySegment) (a : Int)
    (hss : 0 < s.sectorSize) (hdvd : s.sectorSize ∣ (a - s.start)) :
    sectorStart s a = a := by
  obtain ⟨q, hq⟩ := hdvd
  unfold sectorStart
  rw [hq, Int.mul_fdiv_cancel_left _ (ne_of_gt hss)]
  linear_combination -hq

/-! ### Claim C4 — `dfuseCommand` payload layout -/

/-- C4: for every command byte `c` and parameter `p`, `dfuseCommand` builds a
payload of exactly `len + 1` bytes whose byte 0 is `c`; the remaining bytes
are `p` as a single byte when `len = 1` and `p` as a 4-byte little-endian
value when `len = 4`; for every other `len` it raises the
unsupported-parameter-length error before sending anything to the device
(in the source the throw precedes the `this.write(payload, 0)` call). -/
theorem c4_dfuseCommand_payload (command : Nat) (param : Int) (len : Nat)
    (hc : command < 256) :
    (len = 1 → 0 ≤ param → param < 256 →
      dfuseCommandPayload command param len = .ok [command, param.toNat] ∧
      ([command, param.toNat] : List Nat).length = len + 1) ∧
    (len = 4 → 0 ≤ param → param < 4294967296 →
      dfuseCommandPayload command param len = .ok (command :: uint32LE param.toNat) ∧
      (command :: uint32LE param.toNat).length = len + 1 ∧
      uint32FromLE (uint32LE param.toNat) = param.toNat) ∧
    (len ≠ 1 → len ≠ 4 →
      dfuseCommandPayload command param len = .error (.unsupportedParamLength len)) := by
  refine ⟨?_, ?_, ?_⟩
  · rintro rfl h0 h1
    have hm : param % 256 = param := Int.emod_eq_of_lt h0 h1
    exact ⟨by simp [dfuseCommandPayload, Nat.mod_eq_of_lt hc, hm], rfl⟩
  · rintro rfl h0 h1
    have hm : param % 4294967296 = param := Int.emod_eq_of_lt h0 h1
    refine ⟨by simp [dfuseCommandPayload, Nat.mod_eq_of_lt hc, hm], rfl, ?_⟩
    simp only [uint32LE, uint32FromLE]
    omega
  · intro h1 h4
    simp [dfuseCommandPayload, h1, h4]

/-- Witness for C4 at `SET_ADDRESS = 0x21`, parameter `0x08000000`, length 4. -/
theorem c4_witness :
    (0x21 : Nat) < 256 ∧
    (dfuseCommandPayload 0x21 0x08000000 4
        = .ok (0x21 :: uint32LE (0x08000000 : Int).toNat) ∧
      ((0x21 : Nat) :: uint32LE (0x08000000 : Int).toNat).length = 4 + 1 ∧
      uint32FromLE (uint32LE (0x08000000 : Int).toNat) = (0x08000000 : Int).toNat) :=
  ⟨by decide,
    (c4_dfuseCommand_payload 0x21 0x08000000 4 (by decide)).2.1 rfl (by decide) (by decide)⟩

/-! ### Claim C5 — `getSegment` lookup -/

/-- C5: with a loaded sorted non-overlapping map, `getSegment a` returns the
segment containing `a` for every `a` inside some segment, returns `none` for
every `a` outside all segments, and fails with the no-memory-map error when
no map is loaded. -/
theorem c5_getSegment (segs : List DFUseMemorySegment) (a : Int)
    (s : DFUseMemorySegment) (hpw : SortedSegments segs) :
    (s ∈ segs → s.start ≤ a → a < s.«end» → getSegment (some segs) a = .ok (some s)) ∧
    ((∀ u ∈ segs, ¬(u.start ≤ a ∧ a < u.«end»)) → getSegment (some segs) a = .ok none) ∧
    getSegment none a = .error .noMemoryMap := by
  refine ⟨fun hm h1 h2 => ?_, fun h => ?_, rfl⟩
  · simp [getSegment, findSegment_of_mem hpw hm h1 h2]
  · simp [getSegment, findSegment_eq_none_iff.mpr h]

/-- Witness for C5 on the one-segment map, inside address 300. -/
theorem c5_witness :
    SortedSegments wMap1 ∧ getSegment (some wMap1) 300 = .ok (some wSeg1) :=
  ⟨by decide,
    (c5_getSegment wMap1 300 wSeg1 (by decide)).1 (by decide) (by decide) (by decide)⟩

/-! ### Claim C8 — sector-boundary arithmetic -/

/-- C8: for every address `a` inside a segment `s` of a loaded sorted map,
`getSectorStart a` succeeds with a value `v` satisfying
`v ≤ a < v + sectorSize`, and `getSectorEnd a` succeeds with exactly
`v + sectorSize` — in particular on a sector boundary it returns the next
boundary, not `a` itself. -/
theorem c8_sector_bounds (segs : List DFUseMemorySegment)
    (s : DFUseMemorySegment) (a : Int) (hpw : SortedSegments segs)
    (hmem : s ∈ segs) (hss : 0 < s.sectorSize)
    (hlo : s.start ≤ a) (hhi : a < s.«end») :
    getSectorStart (some segs) a = .ok (sectorStart s a) ∧
    sectorStart s a ≤ a ∧ a < sectorStart s a + s.sectorSize ∧
    getSectorEnd (some segs) a = .ok (sectorStart s a + s.sectorSize) := by
  have hfind := findSegment_of_mem hpw hmem hlo hhi
  obtain ⟨hle, hlt, hend, -, -⟩ := sectorStart_bounds s a hss hlo
  refine ⟨?_, hle, hlt, ?_⟩
  · simp [getSectorStart, getSegment, hfind]
  · simp [getSectorEnd, getSegment, hfind, hend]

/-- Witness for C8 at address 288 of the one-segment map: the enclosing
sector is `[256, 512)` and `getSectorEnd` reports 512. -/
theorem c8_witness :
    SortedSegments wMap1 ∧
    (getSectorStart (some wMap1) 288 = .ok (sectorStart wSeg1 288) ∧
      sectorStart wSeg1 288 ≤ 288 ∧ (288 : Int) < sectorStart wSeg1 288 + wSeg1.sectorSize ∧
      getSectorEnd (some wMap1) 288 = .ok (sectorStart wSeg1 288 + wSeg1.sectorSize)) :=
  ⟨by decide,
    c8_sector_bounds wMap1 wSeg1 288 (by decide) (by decide) (by decide)
      (by decide) (by decide)⟩

/-! ### Claim C9 — erase with a start address outside the map -/

/-- Counterexample for C9 as stated: on the map `[32, 64)` with start
address 4 (outside every segment), `erase` fails with the
"Address ... outside of memory map" error thrown by
`getSectorStart(startAddr, segment)` — the `"Unknown segment"` throw the
claim names is unreachable, because `getSectorStart` receives the `null`
segment explicitly (not `undefined`) and throws first. -/
theorem c9_counterexample :
    erase (some outMap) 4 8 50 = some (.error (.addressOutOfMap 4)) ∧
    WebDFUError.addressOutOfMap 4 ≠ WebDFUError.unknownSegment :=
  ⟨rfl, by decide⟩

/-- C9 amended: for every start address that lies in no segment of the
loaded map, `erase` fails with the address-out-of-range error (and, the
throw happening before the loop, no device command is issued). -/
theorem c9_erase_outside_fails (segs : List DFUseMemorySegment)
    (a length : Int) (fuel : Nat) (h : findSegment segs a = none) :
    erase (some segs) a length fuel = some (.error (.addressOutOfMap a)) := by
  simp [erase, h]

/-- Witness for the amended C9 at start address 0 of the `[32, 64)` map. -/
theorem c9_witness :
    erase (some outMap) 0 8 50 = some (.error (.addressOutOfMap 0)) :=
  c9_erase_outside_fails outMap 0 8 50 (by decide)

/-! ### Claim C10 — zero-length erase and empty-image write -/

/-- C10: `erase` computes its range end from `startAddr + length - 1`, so a
zero-length erase is not a no-op: whenever `startAddr - 1` lies outside
every segment, `erase(startAddr, 0)` throws the address-out-of-range error,
and consequently `do_write` of an empty image with that start address throws
instead of completing trivially. -/
theorem c10_zero_length_erase (segs : List DFUseMemorySegment) (a : Int)
    (xfer_size eraseFuel writeFuel fuel : Nat)
    (hin : findSegment segs a ≠ none)
    (hout : findSegment segs (a - 1) = none) :
    erase (some segs) a 0 fuel = some (.error (.addressOutOfMap (a - 1))) ∧
    do_write (some segs) (some a) xfer_size [] eraseFuel writeFuel
      = some (.error (.addressOutOfMap (a - 1))) := by
  obtain ⟨s, hs⟩ := Option.ne_none_iff_exists'.mp hin
  have herase : ∀ f : Nat, erase (some segs) a 0 f
      = some (.error (.addressOutOfMap (a - 1))) := by
    intro f
    have h01 : a + 0 - 1 = a - 1 := by ring
    simp [erase, hs, h01, hout]
  refine ⟨herase fuel, ?_⟩
  simp [do_write, resolveStartAddress, hs, do_write_core, herase eraseFuel]

/-- Witness for C10: the map `[32, 64)` with start address 32 (its first
byte); `do_write` of a 0-byte image throws. -/
theorem c10_witness :
    erase (some outMap) 32 0 7 = some (.error (.addressOutOfMap 31)) ∧
    do_write (some outMap) (some 32) 4 [] 9 9
      = some (.error (.addressOutOfMap 31)) := by
  have h := c10_zero_length_erase outMap 32 4 9 9 7 (by decide) (by decide)
  simpa using h

/-! ### Claim C6 — `getMaxReadSize` -/

theorem boolCheck_true {u : DFUseMemorySegment} {a : Int}
    (h : u.start ≤ a ∧ a < u.«end») :
    (decide (u.start ≤ a) && decide (a < u.«end»)) = true := by
  simp [h.1, h.2]

theorem boolCheck_false {u : DFUseMemorySegment} {a : Int}
    (h : ¬(u.start ≤ a ∧ a < u.«end»)) :
    (decide (u.start ≤ a) && decide (a < u.«end»)) = false := by
  rcases not_and_or.mp h with h | h <;> simp [h]

/-- After the containing segment has been consumed, the scan loop is the
spec-side contiguous extension shifted by the accumulator. -/
theorem maxReadGo_post (a : Int) :
    ∀ (rest : List DFUseMemorySegment) (n : Int), SortedSegments rest →
    (∀ u ∈ rest, u.start < u.«end») →
    (∀ u ∈ rest, ¬(u.start ≤ a ∧ a < u.«end»)) →
    (∀ u ∈ rest, a + n ≤ u.start) →
    maxReadGo a rest n = n + extendContiguous rest (a + n) := by
  intro rest
  induction rest with
  | nil => intro n _ _ _ _; simp [maxReadGo, extendContiguous]
  | cons u tl ih =>
    intro n hpw hne hnc hcur
    have hncu : ¬(u.start ≤ a ∧ a < u.«end») := hnc u (List.mem_cons_self u tl)
    have hcuru : a + n ≤ u.start := hcur u (List.mem_cons_self u tl)
    have hneu : u.start < u.«end» := hne u (List.mem_cons_self u tl)
    have hpw' := List.pairwise_cons.mp hpw
    by_cases hstart : u.start = a + n
    · by_cases hr : u.readable
      · have hstep : maxReadGo a (u :: tl) n
            = maxReadGo a tl (n + (u.«end» - u.start)) := by
          simp only [maxReadGo]
          rw [if_neg hncu, if_pos hstart, if_pos hr]
        rw [hstep, ih (n + (u.«end» - u.start)) hpw'.2
          (fun v hv => hne v (List.mem_cons_of_mem u hv))
          (fun v hv => hnc v (List.mem_cons_of_mem u hv))
          (fun v hv => by have := hpw'.1 v hv; omega)]
        have hcons : extendContiguous (u :: tl) (a + n)
            = (u.«end» - u.start) + extendContiguous tl u.«end» := by
          simp only [extendContiguous]
          rw [if_pos ⟨hstart, hr⟩]
        rw [hcons]
        have harith : a + (n + (u.«end» - u.start)) = u.«end» := by omega
        rw [harith]
        ring
      · have hstep : maxReadGo a (u :: tl) n = n := by
          simp only [maxReadGo]
          rw [if_neg hncu, if_pos hstart, if_neg hr]
        have hcons : extendContiguous (u :: tl) (a + n) = 0 := by
          simp only [extendContiguous]
          rw [if_neg (fun h => hr h.2)]
        rw [hstep, hcons]; ring
    · have hstep : maxReadGo a (u :: tl) n = maxReadGo a tl n := by
        simp only [maxReadGo]
        rw [if_neg hncu, if_neg hstart]
      have htl0 : extendContiguous tl (a + n) = 0 := by
        cases tl with
        | nil => simp [extendContiguous]
        | cons v tl' =>
          have hv : u.«end» ≤ v.start := hpw'.1 v (List.mem_cons_self v tl')
          have hvne : v.start ≠ a + n := by omega
          simp only [extendContiguous]
          rw [if_neg (fun h => hvne h.1)]
      have hcons : extendContiguous (u :: tl) (a + n) = 0 := by
        simp only [extendContiguous]
        rw [if_neg (fun h => hstart h.1)]
      rw [hstep, hcons,
        ih n hpw'.2 (fun v hv => hne v (List.mem_cons_of_mem u hv))
          (fun v hv => hnc v (List.mem_cons_of_mem u hv))
          (fun v hv => by have := hpw'.1 v hv; omega),
        htl0]

/-- The scan loop of `getMaxReadSize`, started with a zero accumulator,
computes exactly the spec-side description. -/
theorem maxReadGo_eq_spec (a : Int) :
    ∀ (segs : List DFUseMemorySegment), SortedSegments segs →
    (∀ s ∈ segs, s.start < s.«end») →
    maxReadGo a segs 0 = maxReadSizeSpec segs a := by
  intro segs
  induction segs with
  | nil => intro _ _; simp [maxReadGo, maxReadSizeSpec]
  | cons s tl ih =>
    intro hpw hne
    have hpw' := List.pairwise_cons.mp hpw
    by_cases hc : s.start ≤ a ∧ a < s.«end»
    · by_cases hr : s.readable
      · have hstep : maxReadGo a (s :: tl) 0
            = maxReadGo a tl (0 + (s.«end» - a)) := by
          simp only [maxReadGo]
          rw [if_pos hc, if_pos hr]
        have hnc : ∀ u ∈ tl, ¬(u.start ≤ a ∧ a < u.«end») := by
          intro u hu
          have := hpw'.1 u hu
          omega
        have hcur : ∀ u ∈ tl, a + (0 + (s.«end» - a)) ≤ u.start := by
          intro u hu
          have := hpw'.1 u hu
          omega
        rw [hstep, maxReadGo_post a tl (0 + (s.«end» - a)) hpw'.2
          (fun v hv => hne v (List.mem_cons_of_mem s hv)) hnc hcur]
        have h1 : a + (0 + (s.«end» - a)) = s.«end» := by ring
        rw [h1]
        have hspec : maxReadSizeSpec (s :: tl) a
            = (s.«end» - a) + extendContiguous tl s.«end» := by
          simp only [maxReadSizeSpec]
          rw [if_pos hc, if_pos hr]
        rw [hspec]; ring
      · have hstep : maxReadGo a (s :: tl) 0 = 0 := by
          simp only [maxReadGo]
          rw [if_pos hc, if_neg hr]
        have hspec : maxReadSizeSpec (s :: tl) a = 0 := by
          simp only [maxReadSizeSpec]
          rw [if_pos hc, if_neg hr]
        rw [hstep, hspec]
    · have hs0 : ¬(s.start = a + 0) := by
        have := hne s (List.mem_cons_self s tl)
        omega
      have hstep : maxReadGo a (s :: tl) 0 = maxReadGo a tl 0 := by
        simp only [maxReadGo]
        rw [if_neg hc, if_neg hs0]
      have hspec : maxReadSizeSpec (s :: tl) a = maxReadSizeSpec tl a := by
        simp only [maxReadSizeSpec]
        rw [if_neg hc]
      rw [hstep, hspec,
        ih hpw'.2 (fun v hv => hne v (List.mem_cons_of_mem s hv))]

theorem maxReadSizeSpec_of_not_found {segs : List DFUseMemorySegment} {a : Int}
    (h : findSegment segs a = none) : maxReadSizeSpec segs a = 0 := by
  induction segs with
  | nil => simp [maxReadSizeSpec]
  | cons s tl ih =>
    have := findSegment_eq_none_iff.mp h
    have hs : ¬(s.start ≤ a ∧ a < s.«end») := this s (List.mem_cons_self s tl)
    have htl : findSegment tl a = none :=
      findSegment_eq_none_iff.mpr fun u hu => this u (List.mem_cons_of_mem s hu)
    simp [maxReadSizeSpec, hs, ih htl]

theorem maxReadSizeSpec_of_unreadable {segs : List DFUseMemorySegment} {a : Int}
    {s : DFUseMemorySegment} (h : findSegment segs a = some s)
    (hr : s.readable = false) : maxReadSizeSpec segs a = 0 := by
  induction segs with
  | nil => simp [findSegment] at h
  | cons u tl ih =>
    by_cases hc : u.start ≤ a ∧ a < u.«end»
    · have : u = s := by
        have : findSegment (u :: tl) a = some u := by
          simp [findSegment, List.find?, boolCheck_true hc]
        rw [this] at h
        exact Option.some.inj h
      subst this
      simp [maxReadSizeSpec, hc, hr]
    · have htl : findSegment tl a = some s := by
        have hstep : findSegment (u :: tl) a = findSegment tl a := by
          simp only [findSegment, List.find?, boolCheck_false hc]
        rw [hstep] at h
        exact h
      simp [maxReadSizeSpec, hc, ih htl]

/-- C6: with a loaded well-formed map, `getMaxReadSize` computes exactly the
spec-side description `maxReadSizeSpec` (remaining bytes of the containing
readable segment plus contiguous readable extensions, stopping without error
at the first non-readable or non-contiguous segment); it returns 0 when the
containing segment is not readable, and returns 0 without raising when
`startAddr` lies in no segment at all. -/
theorem c6_getMaxReadSize (segs : List DFUseMemorySegment) (a : Int)
    (hpw : SortedSegments segs) (hne : ∀ s ∈ segs, s.start < s.«end») :
    getMaxReadSize (some segs) a = .ok (maxReadSizeSpec segs a) ∧
    (findSegment segs a = none → getMaxReadSize (some segs) a = .ok 0) ∧
    (∀ s, findSegment segs a = some s → s.readable = false →
      getMaxReadSize (some segs) a = .ok 0) := by
  have hmain : getMaxReadSize (some segs) a = .ok (maxReadSizeSpec segs a) := by
    simp [getMaxReadSize, maxReadGo_eq_spec a segs hpw hne]
  refine ⟨hmain, fun h => ?_, fun s h hr => ?_⟩
  · rw [hmain, maxReadSizeSpec_of_not_found h]
  · rw [hmain, maxReadSizeSpec_of_unreadable h hr]

/-- Witness for C6 on the non-erasable/erasable two-segment map (both
readable and contiguous): reading from address 8 can cover the rest of the
map, 88 bytes. -/
theorem c6_witness :
    SortedSegments neMap ∧
    getMaxReadSize (some neMap) 8 = .ok (maxReadSizeSpec neMap 8) ∧
    maxReadSizeSpec neMap 8 = 88 :=
  ⟨by decide, (c6_getMaxReadSize neMap 8 (by decide) (by decide)).1, by decide⟩

/-! ### Claim C7 — `do_write` start-address resolution -/

/-- Counterexample for C7 as stated: on a map whose first segment starts at
address 0, `do_write` with the override unset does **not** use the first
segment's start address — the JavaScript falsiness check
`if (!startAddress)` treats address 0 as missing and `do_write` throws
"startAddress not found" before erasing anything (no trace is produced). -/
theorem c7_counterexample :
    do_write (some zeroMap) none 4 [1, 2, 3] 9 9
      = some (.error .startAddressNotFound) ∧
    resultTrace (do_write (some zeroMap) none 4 [1, 2, 3] 9 9) = none :=
  ⟨rfl, rfl⟩

/-- C7 amended: `do_write` resolves its start address as follows.  With the
override set to `a`: if `a` lies in no segment an error is logged and the
operation still proceeds (to erase and write at `a`); if `a` lies in a
segment it proceeds silently.  With the override unset: the first segment's
start is used with a warning **provided it is non-zero**; if the map is
empty or its first segment starts at the falsy address 0, `do_write` throws
"startAddress not found" instead. -/
theorem c7_start_resolution (segs : List DFUseMemorySegment) (a : Int)
    (s0 : DFUseMemorySegment) (rest : List DFUseMemorySegment)
    (xfer_size : Nat) (data : List Nat) (eraseFuel writeFuel : Nat) :
    (findSegment segs a = none →
      do_write (some segs) (some a) xfer_size data eraseFuel writeFuel
        = do_write_core segs a [.logError "Start address outside of memory map bounds"]
            xfer_size data eraseFuel writeFuel) ∧
    (findSegment segs a ≠ none →
      do_write (some segs) (some a) xfer_size data eraseFuel writeFuel
        = do_write_core segs a [] xfer_size data eraseFuel writeFuel) ∧
    (s0.start ≠ 0 →
      do_write (some (s0 :: rest)) none xfer_size data eraseFuel writeFuel
        = do_write_core (s0 :: rest) s0.start [.logWarning "Using inferred start address"]
            xfer_size data eraseFuel writeFuel) ∧
    (s0.start = 0 →
      do_write (some (s0 :: rest)) none xfer_size data eraseFuel writeFuel
        = some (.error .startAddressNotFound)) ∧
    do_write (some []) none xfer_size data eraseFuel writeFuel
      = some (.error .startAddressNotFound) := by
  refine ⟨fun h => ?_, fun h => ?_, fun h => ?_, fun h => ?_, rfl⟩
  · simp [do_write, resolveStartAddress, h]
  · obtain ⟨s, hs⟩ := Option.ne_none_iff_exists'.mp h
    simp [do_write, resolveStartAddress, hs]
  · simp [do_write, resolveStartAddress, h]
  · simp [do_write, resolveStartAddress, h]

/-- Witness for C7: outside override on `[32, 64)` (error logged, operation
proceeds), inside override, and the inferred non-zero first-segment start. -/
theorem c7_witness :
    (do_write (some outMap) (some 10) 4 [1] 9 9
      = do_write_core outMap 10 [.logError "Start address outside of memory map bounds"]
          4 [1] 9 9) ∧
    (do_write (some outMap) (some 40) 4 [1] 9 9
      = do_write_core outMap 40 [] 4 [1] 9 9) ∧
    (do_write (some (wSeg1 :: [])) none 4 [1] 9 9
      = do_write_core (wSeg1 :: []) wSeg1.start [.logWarning "Using inferred start address"]
          4 [1] 9 9) :=
  ⟨(c7_start_resolution outMap 10 wSeg1 [] 4 [1] 9 9).1 (by decide),
   (c7_start_resolution outMap 40 wSeg1 [] 4 [1] 9 9).2.1 (by decide),
   (c7_start_resolution (wSeg1 :: []) 40 wSeg1 [] 4 [1] 9 9).2.2.1 (by decide)⟩


/-! ### Claim C1 — `do_write` chunking and manifestation -/

theorem lt_ceilDiv_iff {C : Nat} (hC : 0 < C) (i N : Nat) :
    i < (N + C - 1) / C ↔ i * C < N := by
  rw [Nat.lt_iff_add_one_le, Nat.le_div_iff_mul_le hC]
  have h1 : (i + 1) * C = i * C + C := by ring
  rw [h1]
  omega

theorem chunkEvents_shift (data : List Nat) (C N : Nat) (addr : Int) (i j : Nat) :
    chunkEvents data C N addr i (j + 1)
      = chunkEvents data C N (addr + (C : Int)) (i + 1) j := by
  unfold chunkEvents
  have h1 : i + (j + 1) = i + 1 + j := by omega
  rw [h1]
  have h2 : addr + (((j + 1) * C : Nat) : Int) = addr + (C : Int) + ((j * C : Nat) : Int) := by
    push_cast; ring
  rw [h2]

theorem writeLoop_exit (data : List Nat) (C N fuel bs : Nat) (addr : Int)
    (tr : List DfuEvent) (h : ¬bs < N) :
    writeLoop data C N fuel bs addr tr = some tr := by
  rw [writeLoop.eq_def]
  dsimp only
  rw [if_neg h]

theorem writeLoop_continue (data : List Nat) (C N fuel bs : Nat) (addr : Int)
    (tr : List DfuEvent) (h : bs < N) :
    writeLoop data C N (fuel + 1) bs addr tr
      = writeLoop data C N fuel (bs + ((data.drop bs).take (min (N - bs) C)).length)
          (addr + ((min (N - bs) C : Nat) : Int))
          (tr ++ [.dfuseCmd DFUseCommands.SET_ADDRESS addr,
                  .write ((data.drop bs).take (min (N - bs) C)) 2,
                  .progress ((bs + ((data.drop bs).take (min (N - bs) C)).length : Nat) : Int)
                    (N : Int)]) := by
  rw [writeLoop.eq_def]
  dsimp only
  rw [if_pos h]

theorem writeLoop_spec (data : List Nat) (C N : Nat) (hC : 0 < C)
    (hN : N = data.length) :
    ∀ (m i : Nat) (addr : Int) (tr : List DfuEvent),
      (N + C - 1) / C ≤ i + m →
      writeLoop data C N m (min (i * C) N) addr tr
        = some (tr ++ (List.range ((N + C - 1) / C - i)).flatMap
            (chunkEvents data C N addr i)) := by
  intro m
  induction m with
  | zero =>
    intro i addr tr hfuel
    have hik : (N + C - 1) / C ≤ i := by omega
    have hmin : min (i * C) N = N := by
      have := (lt_ceilDiv_iff hC i N).not.mp (by omega)
      omega
    have hr0 : (N + C - 1) / C - i = 0 := by omega
    rw [hmin, writeLoop_exit data C N 0 N addr tr (by omega), hr0]
    simp
  | succ m ih =>
    intro i addr tr hfuel
    by_cases hik : (N + C - 1) / C ≤ i
    · have hmin : min (i * C) N = N := by
        have := (lt_ceilDiv_iff hC i N).not.mp (by omega)
        omega
      have hr0 : (N + C - 1) / C - i = 0 := by omega
      rw [hmin, writeLoop_exit data C N (m + 1) N addr tr (by omega), hr0]
      simp
    · have hlt : i * C < N := (lt_ceilDiv_iff hC i N).mp (by omega)
      have hmin : min (i * C) N = i * C := by omega
      have hmulsucc : (i + 1) * C = i * C + C := by ring
      have hchunklen : ((data.drop (i * C)).take (min (N - i * C) C)).length
          = min (N - i * C) C := by
        rw [List.length_take, List.length_drop, ← hN]
        omega
      have hbs' : i * C + ((data.drop (i * C)).take (min (N - i * C) C)).length
          = min ((i + 1) * C) N := by
        rw [hchunklen, hmulsucc]
        omega
      rw [hmin, writeLoop_continue data C N m (i * C) addr tr hlt, hbs']
      rw [ih (i + 1)]
      have hsplit : (N + C - 1) / C - i = ((N + C - 1) / C - (i + 1)) + 1 := by omega
      rw [hsplit, List.range_succ_eq_map, List.flatMap_cons, List.flatMap_map]
      have hhead : chunkEvents data C N addr i 0
          = [DfuEvent.dfuseCmd DFUseCommands.SET_ADDRESS addr,
             DfuEvent.write ((data.drop (i * C)).take (min (N - i * C) C)) 2,
             DfuEvent.progress ((min ((i + 1) * C) N : Nat) : Int) (N : Int)] := by
        unfold chunkEvents
        have e1 : addr + ((0 * C : Nat) : Int) = addr := by push_cast; ring
        have e2 : i + 0 = i := by omega
        rw [e1, e2]
      have htail : (List.range ((N + C - 1) / C - (i + 1))).flatMap
            (fun a => chunkEvents data C N addr i (Nat.succ a))
          = (List.range ((N + C - 1) / C - (i + 1))).flatMap
            (chunkEvents data C N (addr + ((min (N - i * C) C : Nat) : Int)) (i + 1)) := by
        apply List.flatMap_congr
        intro j hj
        have hjlt : j < (N + C - 1) / C - (i + 1) := List.mem_range.mp hj
        have hi1 : i + 1 < (N + C - 1) / C := by omega
        have hi1C : (i + 1) * C < N := (lt_ceilDiv_iff hC (i + 1) N).mp hi1
        have hcs : min (N - i * C) C = C := by
          rw [hmulsucc] at hi1C
          omega
        rw [hcs, show Nat.succ j = j + 1 from rfl, chunkEvents_shift]
      rw [hhead, htail]
      · simp [List.append_assoc]
      · omega

theorem writeLoop_spec0 (data : List Nat) (C N : Nat) (hC : 0 < C)
    (hN : N = data.length) (m : Nat) (addr : Int) (tr : List DfuEvent)
    (hfuel : (N + C - 1) / C ≤ m) :
    writeLoop data C N m 0 addr tr
      = some (tr ++ (List.range ((N + C - 1) / C)).flatMap
          (chunkEvents data C N addr 0)) := by
  have h := writeLoop_spec data C N hC hN m 0 addr tr (by omega)
  simpa using h

/-- C1: under the happy-path device (the base write primitive reports every
requested byte written, every poll OK), when the start address resolves to
`a0` and the erase phase completes with trace `etr`, `do_write` of an
`N`-byte image with chunk size `C > 0` produces exactly
`ceil(N / C) = (N + C - 1) / C` SET_ADDRESS-then-data-transfer pairs — the
`j`-th (`chunkEvents … a0 0 j`) sets address `a0 + j*C` and transfers image
bytes `[j*C, min((j+1)*C, N))` at block index 2 — followed by exactly one
more SET_ADDRESS at the original start address and one zero-length write at
block index 0 (the manifestation step). -/
theorem c1_do_write_chunking (segs : List DFUseMemorySegment)
    (startAddress : Option Int) (a0 : Int) (rtr etr : List DfuEvent)
    (C N : Nat) (data : List Nat) (eraseFuel writeFuel : Nat)
    (hN : N = data.length) (hC : 0 < C)
    (hres : resolveStartAddress segs startAddress = .ok (a0, rtr))
    (herase : erase (some segs) a0 (N : Int) eraseFuel = some (.ok etr))
    (hfuel : (N + C - 1) / C ≤ writeFuel) :
    do_write (some segs) startAddress C data eraseFuel writeFuel
      = some (.ok ([DfuEvent.logInfo "Erasing DFU device memory"] ++ rtr ++ etr ++
          [DfuEvent.logInfo "Copying data from browser to DFU device"] ++
          (List.range ((N + C - 1) / C)).flatMap (chunkEvents data C N a0 0) ++
          [DfuEvent.logInfo "Wrote bytes", DfuEvent.logInfo "Manifesting new firmware",
           DfuEvent.dfuseCmd DFUseCommands.SET_ADDRESS a0, DfuEvent.write [] 0])) := by
  simp only [do_write, hres]
  simp only [do_write_core, ← hN, herase]
  rw [writeLoop_spec0 data C N hC hN writeFuel a0]
  exact hfuel

/-- Witness for C1: a 5-byte image written in chunks of 2 over the
one-segment map — 3 = ceil(5/2) chunk pairs then the manifestation pair. -/
theorem c1_witness :
    do_write (some wMap1) (some 256) 2 [1, 2, 3, 4, 5] 10 10
      = some (.ok ([DfuEvent.logInfo "Erasing DFU device memory"] ++ [] ++
          [DfuEvent.progress 0 256, DfuEvent.dfuseCmd DFUseCommands.ERASE_SECTOR 256,
           DfuEvent.progress 256 256] ++
          [DfuEvent.logInfo "Copying data from browser to DFU device"] ++
          (List.range ((5 + 2 - 1) / 2)).flatMap (chunkEvents [1, 2, 3, 4, 5] 2 5 256 0) ++
          [DfuEvent.logInfo "Wrote bytes", DfuEvent.logInfo "Manifesting new firmware",
           DfuEvent.dfuseCmd DFUseCommands.SET_ADDRESS 256, DfuEvent.write [] 0])) :=
  c1_do_write_chunking wMap1 (some 256) 256 []
    [DfuEvent.progress 0 256, DfuEvent.dfuseCmd DFUseCommands.ERASE_SECTOR 256,
     DfuEvent.progress 256 256]
    2 5 [1, 2, 3, 4, 5] 10 10 rfl (by decide) rfl rfl (by decide)

theorem eraseLoop_exit (segs : List DFUseMemorySegment) (endAddr B : Int)
    (fuel : Nat) (segment : Option DFUseMemorySegment) (addr be : Int)
    (tr : List DfuEvent) (h : ¬addr < endAddr) :
    eraseLoop segs endAddr B fuel segment addr be tr = some tr := by
  rw [eraseLoop.eq_def]
  dsimp only
  rw [if_neg h]

theorem eraseLoop_step_erase (segs : List DFUseMemorySegment) (endAddr B : Int)
    (fuel : Nat) (segment : Option DFUseMemorySegment) (addr be : Int)
    (tr : List DfuEvent) (s : DFUseMemorySegment) (h : addr < endAddr)
    (hres : (if segEndD segment ≤ addr then findSegment segs addr else segment) = some s)
    (her : s.erasable = true) :
    eraseLoop segs endAddr B (fuel + 1) segment addr be tr
      = eraseLoop segs endAddr B fuel (some s) (sectorStart s addr + s.sectorSize)
          (be + s.sectorSize)
          (tr ++ [.dfuseCmd DFUseCommands.ERASE_SECTOR (sectorStart s addr),
                  .progress (be + s.sectorSize) B]) := by
  rw [eraseLoop.eq_def]
  dsimp only
  rw [if_pos h, hres]
  dsimp only
  rw [if_pos her]
  rw [show sectorStart s addr = s.start + (addr - s.start).fdiv s.sectorSize * s.sectorSize from rfl]

theorem eraseLoop_step_skip (segs : List DFUseMemorySegment) (endAddr B : Int)
    (fuel : Nat) (segment : Option DFUseMemorySegment) (addr be : Int)
    (tr : List DfuEvent) (s : DFUseMemorySegment) (h : addr < endAddr)
    (hres : (if segEndD segment ≤ addr then findSegment segs addr else segment) = some s)
    (her : s.erasable = false) :
    eraseLoop segs endAddr B (fuel + 1) segment addr be tr
      = eraseLoop segs endAddr B fuel (some s) s.«end»
          (min (be + (s.«end» - addr)) B)
          (tr ++ [.progress (min (be + (s.«end» - addr)) B) B]) := by
  rw [eraseLoop.eq_def]
  dsimp only
  rw [if_pos h, hres]
  dsimp only
  rw [if_neg (by simp [her])]

theorem segments_order {segs : List DFUseMemorySegment} (hpw : SortedSegments segs)
    {u v : DFUseMemorySegment} (hu : u ∈ segs) (hv : v ∈ segs) (huv : u ≠ v) :
    u.«end» ≤ v.start ∨ v.«end» ≤ u.start := by
  have hpw' : segs.Pairwise fun a b => a.«end» ≤ b.start ∨ b.«end» ≤ a.start :=
    hpw.imp fun h => Or.inl h
  exact hpw'.forall (fun a b h => h.symm) hu hv huv

theorem eraseTerm_zero {s : DFUseMemorySegment} (hss : 0 < s.sectorSize)
    {a e : Int} (h : min e s.«end» ≤ max a s.start) : eraseTerm a e s = 0 := by
  unfold eraseTerm
  split
  · have h1 : (min e s.«end» - max a s.start) / s.sectorSize ≤ 0 := by
      have h2 := Int.ediv_le_ediv hss (show min e s.«end» - max a s.start ≤ 0 by omega)
      simpa using h2
    omega
  · rfl

theorem eraseTerm_congr_after {u : DFUseMemorySegment} {a a' e : Int}
    (h : a ≤ u.start) (h' : a' ≤ u.start) : eraseTerm a e u = eraseTerm a' e u := by
  unfold eraseTerm
  rw [max_eq_right h, max_eq_right h']

theorem eraseTerm_succ {s : DFUseMemorySegment} (hss : 0 < s.sectorSize)
    {a e : Int} (her : s.erasable = true) (ha : s.start ≤ a)
    (hM : a + s.sectorSize ≤ min e s.«end») :
    eraseTerm a e s = eraseTerm (a + s.sectorSize) e s + 1 := by
  unfold eraseTerm
  rw [if_pos her, if_pos her, max_eq_left ha, max_eq_left (by omega)]
  have key : (min e s.«end» - a) / s.sectorSize
      = (min e s.«end» - (a + s.sectorSize)) / s.sectorSize + 1 := by
    have h2 : min e s.«end» - a
        = (min e s.«end» - (a + s.sectorSize)) + 1 * s.sectorSize := by ring
    rw [h2, Int.add_mul_ediv_right _ _ (ne_of_gt hss)]
  have hq : 0 ≤ (min e s.«end» - (a + s.sectorSize)) / s.sectorSize :=
    Int.ediv_nonneg (by omega) (le_of_lt hss)
  omega

theorem expectedEraseCount_of_ge {a e : Int} (h : e ≤ a) :
    ∀ segs : List DFUseMemorySegment, (∀ s ∈ segs, 0 < s.sectorSize) →
    expectedEraseCount segs a e = 0 := by
  intro segs
  induction segs with
  | nil => intro _; rfl
  | cons u tl ih =>
    intro hss
    have h0 : eraseTerm a e u = 0 := by
      apply eraseTerm_zero (hss u (List.mem_cons_self u tl))
      have h1 : min e u.«end» ≤ e := min_le_left _ _
      have h2 : a ≤ max a u.start := le_max_left _ _
      omega
    unfold expectedEraseCount at *
    rw [List.map_cons, List.sum_cons, h0,
      ih fun v hv => hss v (List.mem_cons_of_mem u hv)]

theorem expectedEraseCount_skip {s : DFUseMemorySegment} {addr e : Int}
    (her : s.erasable = false) (h1 : s.start ≤ addr) (h2 : addr < s.«end») :
    ∀ segs : List DFUseMemorySegment, SortedSegments segs →
    (∀ u ∈ segs, 0 < u.sectorSize) → (∀ u ∈ segs, u.start < u.«end») →
    s ∈ segs →
    expectedEraseCount segs addr e = expectedEraseCount segs s.«end» e := by
  intro segs
  induction segs with
  | nil => intro _ _ _ hmem; cases hmem
  | cons u tl ih =>
    intro hpw hss hne hmem
    have hpw' := List.pairwise_cons.mp hpw
    unfold expectedEraseCount
    rw [List.map_cons, List.sum_cons, List.map_cons, List.sum_cons]
    rcases List.mem_cons.mp hmem with heq | hmem'
    · subst heq
      have ht1 : eraseTerm addr e s = 0 := by
        unfold eraseTerm
        rw [if_neg (by simp [her])]
      have ht2 : eraseTerm s.«end» e s = 0 := by
        unfold eraseTerm
        rw [if_neg (by simp [her])]
      have htail : tl.map (eraseTerm addr e) = tl.map (eraseTerm s.«end» e) := by
        apply List.map_congr_left
        intro v hv
        have hsv : s.«end» ≤ v.start := hpw'.1 v hv
        exact eraseTerm_congr_after (by omega) (by omega)
      rw [ht1, ht2, htail]
    · have hus : u.«end» ≤ s.start := hpw'.1 s hmem'
      have hneu : u.start < u.«end» := hne u (List.mem_cons_self u tl)
      have hssu : 0 < u.sectorSize := hss u (List.mem_cons_self u tl)
      have ht1 : eraseTerm addr e u = 0 := by
        apply eraseTerm_zero hssu
        have ha1 : min e u.«end» ≤ u.«end» := min_le_right _ _
        have ha2 : addr ≤ max addr u.start := le_max_left _ _
        omega
      have ht2 : eraseTerm s.«end» e u = 0 := by
        apply eraseTerm_zero hssu
        have ha1 : min e u.«end» ≤ u.«end» := min_le_right _ _
        have ha2 : s.«end» ≤ max s.«end» u.start := le_max_left _ _
        omega
      rw [ht1, ht2,
        show (tl.map (eraseTerm addr e)).sum = expectedEraseCount tl addr e from rfl,
        show (tl.map (eraseTerm s.«end» e)).sum = expectedEraseCount tl s.«end» e from rfl,
        ih hpw'.2 (fun v hv => hss v (List.mem_cons_of_mem u hv))
          (fun v hv => hne v (List.mem_cons_of_mem u hv)) hmem']

theorem expectedEraseCount_erase_step {s : DFUseMemorySegment} {addr e : Int}
    (her : s.erasable = true) (h1 : s.start ≤ addr) (h2 : addr < s.«end»)
    (hM : addr + s.sectorSize ≤ min e s.«end») :
    ∀ segs : List DFUseMemorySegment, SortedSegments segs →
    (∀ u ∈ segs, 0 < u.sectorSize) → (∀ u ∈ segs, u.start < u.«end») →
    s ∈ segs →
    expectedEraseCount segs addr e
      = expectedEraseCount segs (addr + s.sectorSize) e + 1 := by
  intro segs
  induction segs with
  | nil => intro _ _ _ hmem; cases hmem
  | cons u tl ih =>
    intro hpw hss hne hmem
    have hpw' := List.pairwise_cons.mp hpw
    unfold expectedEraseCount
    rw [List.map_cons, List.sum_cons, List.map_cons, List.sum_cons]
    rcases List.mem_cons.mp hmem with heq | hmem'
    · subst heq
      have hssS : 0 < s.sectorSize := hss s (List.mem_cons_self s tl)
      have ht : eraseTerm addr e s = eraseTerm (addr + s.sectorSize) e s + 1 :=
        eraseTerm_succ hssS her h1 hM
      have hMe : addr + s.sectorSize ≤ s.«end» := by
        have := min_le_right e s.«end»
        omega
      have htail : tl.map (eraseTerm addr e)
          = tl.map (eraseTerm (addr + s.sectorSize) e) := by
        apply List.map_congr_left
        intro v hv
        have hsv : s.«end» ≤ v.start := hpw'.1 v hv
        exact eraseTerm_congr_after (by omega) (by omega)
      rw [ht, htail]
      omega
    · have hus : u.«end» ≤ s.start := hpw'.1 s hmem'
      have hssu : 0 < u.sectorSize := hss u (List.mem_cons_self u tl)
      have hssS : 0 < s.sectorSize := hss s (List.mem_cons_of_mem u hmem')
      have ht1 : eraseTerm addr e u = 0 := by
        apply eraseTerm_zero hssu
        have ha1 : min e u.«end» ≤ u.«end» := min_le_right _ _
        have ha2 : addr ≤ max addr u.start := le_max_left _ _
        omega
      have ht2 : eraseTerm (addr + s.sectorSize) e u = 0 := by
        apply eraseTerm_zero hssu
        have ha1 : min e u.«end» ≤ u.«end» := min_le_right _ _
        have ha2 : addr + s.sectorSize ≤ max (addr + s.sectorSize) u.start := le_max_left _ _
        omega
      rw [ht1, ht2,
        show (tl.map (eraseTerm addr e)).sum = expectedEraseCount tl addr e from rfl,
        show (tl.map (eraseTerm (addr + s.sectorSize) e)).sum
          = expectedEraseCount tl (addr + s.sectorSize) e from rfl,
        ih hpw'.2 (fun v hv => hss v (List.mem_cons_of_mem u hv))
          (fun v hv => hne v (List.mem_cons_of_mem u hv)) hmem']
      omega

theorem finalProgress_append_right {a b : List DfuEvent} {v : Int}
    (h : finalProgress b = some v) : finalProgress (a ++ b) = some v := by
  unfold finalProgress at *
  rw [List.reverse_append, List.findSome?_append, h]
  rfl

theorem finalProgress_pair_cmd (c : Nat) (x d t : Int) :
    finalProgress [DfuEvent.dfuseCmd c x, DfuEvent.progress d t] = some d := rfl

theorem finalProgress_single (d t : Int) :
    finalProgress [DfuEvent.progress d t] = some d := rfl

theorem countEraseCmds_append (a b : List DfuEvent) :
    countEraseCmds (a ++ b) = countEraseCmds a + countEraseCmds b :=
  List.countP_append _ a b

theorem erasesOnly_append (segs : List DFUseMemorySegment) (a b : List DfuEvent) :
    erasesOnlyErasable segs (a ++ b)
      = (erasesOnlyErasable segs a && erasesOnlyErasable segs b) :=
  List.all_append

theorem erasesOnly_pair {segs : List DFUseMemorySegment} {s : DFUseMemorySegment}
    (hmem : s ∈ segs) (her : s.erasable = true) {x : Int}
    (hx1 : s.start ≤ x) (hx2 : x < s.«end») (d t : Int) :
    erasesOnlyErasable segs [DfuEvent.dfuseCmd DFUseCommands.ERASE_SECTOR x,
      DfuEvent.progress d t] = true := by
  unfold erasesOnlyErasable
  simp only [List.all_cons, List.all_nil, Bool.and_true]
  have hany : (segs.any fun u =>
      u.erasable && decide (u.start ≤ x) && decide (x < u.«end»)) = true := by
    rw [List.any_eq_true]
    exact ⟨s, hmem, by simp [her, hx1, hx2]⟩
  simp [hany]

/-- The loop invariant of `erase`: starting from a sector-aligned cursor
inside a known segment, with the whole remaining span covered by segments
whose sector sizes divide their lengths, the loop completes within
`endAddr - addr` fuel and its remaining trace carries exactly the expected
`ERASE_SECTOR` commands (one per sector of the erasable overlap), all aimed
at erasable segments, ending with cumulative progress `endAddr - addr0`. -/
theorem eraseLoop_invariant (segs : List DFUseMemorySegment) (addr0 endAddr : Int)
    (hpw : SortedSegments segs)
    (hne : ∀ s ∈ segs, s.start < s.«end»)
    (hss : ∀ s ∈ segs, 0 < s.sectorSize)
    (hdvd : ∀ s ∈ segs, s.sectorSize ∣ (s.«end» - s.start))
    (hcov : ∀ x : Int, addr0 ≤ x → x < endAddr → (findSegment segs x).isSome)
    (hend : ∃ t ∈ segs, t.start ≤ endAddr - 1 ∧ endAddr - 1 < t.«end» ∧
      t.sectorSize ∣ (endAddr - t.start)) :
    ∀ (fuel : Nat) (segment : DFUseMemorySegment) (addr be : Int) (tr : List DfuEvent),
      (endAddr - addr).toNat ≤ fuel →
      addr0 ≤ addr →
      segment ∈ segs → segment.start ≤ addr →
      (∀ u ∈ segs, u.start ≤ addr → addr < u.«end» → u.sectorSize ∣ (addr - u.start)) →
      be = min (addr - addr0) (endAddr - addr0) →
      ∃ tr' : List DfuEvent,
        eraseLoop segs endAddr (endAddr - addr0) fuel (some segment) addr be tr
          = some (tr ++ tr') ∧
        countEraseCmds tr' = expectedEraseCount segs addr endAddr ∧
        erasesOnlyErasable segs tr' = true ∧
        (addr < endAddr → finalProgress tr' = some (endAddr - addr0)) ∧
        (endAddr ≤ addr → tr' = []) := by
  intro fuel
  induction fuel with
  | zero =>
    intro segment addr be tr hfuel haddr0 hmem hstart halign hbe
    have hge : endAddr ≤ addr := by omega
    refine ⟨[], ?_, ?_, rfl, fun h => absurd h (by omega), fun _ => rfl⟩
    · rw [eraseLoop_exit segs endAddr _ 0 (some segment) addr be tr (by omega)]
      simp
    · rw [expectedEraseCount_of_ge hge segs hss]
      rfl
  | succ n ih =>
    intro segment addr be tr hfuel haddr0 hmem hstart halign hbe
    by_cases hlt : addr < endAddr
    case neg =>
      refine ⟨[], ?_, ?_, rfl, fun h => absurd h hlt, fun _ => rfl⟩
      · rw [eraseLoop_exit segs endAddr _ (n + 1) (some segment) addr be tr hlt]
        simp
      · rw [expectedEraseCount_of_ge (by omega) segs hss]
        rfl
    case pos =>
      -- resolve the current segment
      have hresolve : ∃ s : DFUseMemorySegment,
          (if segEndD (some segment) ≤ addr then findSegment segs addr
            else some segment) = some s ∧
          s ∈ segs ∧ s.start ≤ addr ∧ addr < s.«end» := by
        by_cases hre : segEndD (some segment) ≤ addr
        · have hsome := hcov addr haddr0 hlt
          obtain ⟨s, hs⟩ := Option.isSome_iff_exists.mp hsome
          obtain ⟨hsm, hs1, hs2⟩ := findSegment_eq_some hs
          exact ⟨s, by rw [if_pos hre, hs], hsm, hs1, hs2⟩
        · refine ⟨segment, by rw [if_neg hre], hmem, hstart, ?_⟩
          simp only [segEndD] at hre
          omega
      obtain ⟨s, hres, hsmem, hs1, hs2⟩ := hresolve
      have hssS : 0 < s.sectorSize := hss s hsmem
      have halignS : s.sectorSize ∣ (addr - s.start) := halign s hsmem hs1 hs2
      have hmin_le : addr - addr0 ≤ endAddr - addr0 := by omega
      have hbe' : be = addr - addr0 := by
        rw [hbe, min_eq_left hmin_le]
      by_cases herasable : s.erasable = true
      · -- erase one sector at addr (the cursor is aligned, so the sector
        -- containing addr starts at addr itself)
        have hsec : sectorStart s addr = addr := sectorStart_of_aligned s addr hssS halignS
        have hstepend : addr + s.sectorSize ≤ s.«end» := by
          have hd : s.sectorSize ∣ (s.«end» - addr) := by
            have h3 : s.«end» - addr = (s.«end» - s.start) - (addr - s.start) := by ring
            rw [h3]
            exact dvd_sub (hdvd s hsmem) halignS
          have := Int.le_of_dvd (by omega) hd
          omega
        have hstependAddr : addr + s.sectorSize ≤ endAddr := by
          by_cases hcase : endAddr ≤ s.«end»
          · obtain ⟨t, htmem, ht1, ht2, htdvd⟩ := hend
            have hts : t = s :=
              containing_unique hpw htmem hsmem ht1 ht2 (by omega) (by omega)
            subst hts
            have hd : t.sectorSize ∣ (endAddr - addr) := by
              have h3 : endAddr - addr = (endAddr - t.start) - (addr - t.start) := by ring
              rw [h3]
              exact dvd_sub htdvd halignS
            have := Int.le_of_dvd (by omega) hd
            omega
          · omega
        rw [eraseLoop_step_erase segs endAddr _ n (some segment) addr be tr s hlt hres
          herasable, hsec]
        have halign' : ∀ u ∈ segs, u.start ≤ addr + s.sectorSize →
            addr + s.sectorSize < u.«end» →
            u.sectorSize ∣ (addr + s.sectorSize - u.start) := by
          intro u hu hu1 hu2
          by_cases huv : u = s
          · subst huv
            have h3 : addr + u.sectorSize - u.start
                = (addr - u.start) + u.sectorSize := by ring
            rw [h3]
            exact dvd_add halignS dvd_rfl
          · rcases segments_order hpw hu hsmem huv with hov | hov
            · omega
            · have hu0 : u.start = addr + s.sectorSize := by omega
              rw [hu0]
              simp
        obtain ⟨tr2, hloop, hcount, honly, hprog, hexit⟩ :=
          ih s (addr + s.sectorSize) (be + s.sectorSize)
            (tr ++ [.dfuseCmd DFUseCommands.ERASE_SECTOR addr,
                    .progress (be + s.sectorSize) (endAddr - addr0)])
            (by omega) (by omega) hsmem (by omega) halign' (by omega)
        refine ⟨[DfuEvent.dfuseCmd DFUseCommands.ERASE_SECTOR addr,
                 DfuEvent.progress (be + s.sectorSize) (endAddr - addr0)] ++ tr2,
          ?_, ?_, ?_, ?_, fun h => absurd hlt (by omega)⟩
        · rw [hloop, List.append_assoc]
        · rw [countEraseCmds_append, hcount,
            expectedEraseCount_erase_step herasable hs1 hs2
              (le_min hstependAddr hstepend) segs hpw hss hne hsmem]
          have hone : countEraseCmds
              [DfuEvent.dfuseCmd DFUseCommands.ERASE_SECTOR addr,
               DfuEvent.progress (be + s.sectorSize) (endAddr - addr0)] = 1 := rfl
          omega
        · rw [erasesOnly_append, honly,
            erasesOnly_pair hsmem herasable hs1 hs2 (be + s.sectorSize) (endAddr - addr0)]
          rfl
        · intro _
          by_cases hmore : addr + s.sectorSize < endAddr
          · exact finalProgress_append_right (hprog hmore)
          · rw [hexit (by omega), List.append_nil]
            have hval : be + s.sectorSize = endAddr - addr0 := by omega
            rw [hval]
            exact finalProgress_pair_cmd _ _ _ _
      · -- skip the non-erasable segment in one step
        have herasable' : s.erasable = false := by
          cases h : s.erasable
          · rfl
          · exact absurd h herasable
        rw [eraseLoop_step_skip segs endAddr _ n (some segment) addr be tr s hlt hres
          herasable']
        have hbee : min (be + (s.«end» - addr)) (endAddr - addr0)
            = min (s.«end» - addr0) (endAddr - addr0) := by
          rw [hbe']
          have h3 : addr - addr0 + (s.«end» - addr) = s.«end» - addr0 := by ring
          rw [h3]
        have halign' : ∀ u ∈ segs, u.start ≤ s.«end» → s.«end» < u.«end» →
            u.sectorSize ∣ (s.«end» - u.start) := by
          intro u hu hu1 hu2
          by_cases huv : u = s
          · subst huv
            omega
          · rcases segments_order hpw hu hsmem huv with hov | hov
            · omega
            · have hu0 : u.start = s.«end» := by omega
              rw [hu0]
              simp
        rw [hbee]
        obtain ⟨tr2, hloop, hcount, honly, hprog, hexit⟩ :=
          ih s s.«end» (min (s.«end» - addr0) (endAddr - addr0))
            (tr ++ [.progress (min (s.«end» - addr0) (endAddr - addr0)) (endAddr - addr0)])
            (by omega) (by omega) hsmem (by omega) halign' rfl
        refine ⟨[DfuEvent.progress (min (s.«end» - addr0) (endAddr - addr0))
                  (endAddr - addr0)] ++ tr2,
          ?_, ?_, ?_, ?_, fun h => absurd hlt (by omega)⟩
        · rw [hloop, List.append_assoc]
        · rw [countEraseCmds_append, hcount,
            expectedEraseCount_skip herasable' hs1 hs2 segs hpw hss hne hsmem]
          have hzero : countEraseCmds
              [DfuEvent.progress (min (s.«end» - addr0) (endAddr - addr0))
                (endAddr - addr0)] = 0 := rfl
          omega
        · rw [erasesOnly_append, honly]
          rfl
        · intro _
          by_cases hmore : s.«end» < endAddr
          · exact finalProgress_append_right (hprog hmore)
          · rw [hexit (by omega), List.append_nil]
            have hval : min (s.«end» - addr0) (endAddr - addr0) = endAddr - addr0 := by
              omega
            rw [hval]
            exact finalProgress_single _ _

/-- Termination of the erase loop needs only positive sector sizes and a
fully covered span: each iteration strictly increases the cursor. -/
theorem eraseLoop_total (segs : List DFUseMemorySegment) (addr0 endAddr B : Int)
    (hss : ∀ s ∈ segs, 0 < s.sectorSize)
    (hcov : ∀ x : Int, addr0 ≤ x → x < endAddr → (findSegment segs x).isSome) :
    ∀ (fuel : Nat) (segment : DFUseMemorySegment) (addr be : Int) (tr : List DfuEvent),
      (endAddr - addr).toNat ≤ fuel → addr0 ≤ addr →
      segment ∈ segs → segment.start ≤ addr →
      (eraseLoop segs endAddr B fuel (some segment) addr be tr).isSome := by
  intro fuel
  induction fuel with
  | zero =>
    intro segment addr be tr hfuel haddr0 hmem hstart
    rw [eraseLoop_exit segs endAddr B 0 (some segment) addr be tr (by omega)]
    rfl
  | succ n ih =>
    intro segment addr be tr hfuel haddr0 hmem hstart
    by_cases hlt : addr < endAddr
    case neg =>
      rw [eraseLoop_exit segs endAddr B (n + 1) (some segment) addr be tr hlt]
      rfl
    case pos =>
      have hresolve : ∃ s : DFUseMemorySegment,
          (if segEndD (some segment) ≤ addr then findSegment segs addr
            else some segment) = some s ∧
          s ∈ segs ∧ s.start ≤ addr ∧ addr < s.«end» := by
        by_cases hre : segEndD (some segment) ≤ addr
        · have hsome := hcov addr haddr0 hlt
          obtain ⟨s, hs⟩ := Option.isSome_iff_exists.mp hsome
          obtain ⟨hsm, hs1, hs2⟩ := findSegment_eq_some hs
          exact ⟨s, by rw [if_pos hre, hs], hsm, hs1, hs2⟩
        · refine ⟨segment, by rw [if_neg hre], hmem, hstart, ?_⟩
          simp only [segEndD] at hre
          omega
      obtain ⟨s, hres, hsmem, hs1, hs2⟩ := hresolve
      have hssS : 0 < s.sectorSize := hss s hsmem
      by_cases herasable : s.erasable = true
      · rw [eraseLoop_step_erase segs endAddr B n (some segment) addr be tr s hlt hres
          herasable]
        obtain ⟨hle, hltS, -, hstartS, -⟩ := sectorStart_bounds s addr hssS hs1
        exact ih s (sectorStart s addr + s.sectorSize) (be + s.sectorSize) _
          (by omega) (by omega) hsmem (by omega)
      · have herasable' : s.erasable = false := by
          cases h : s.erasable
          · rfl
          · exact absurd h herasable
        rw [eraseLoop_step_skip segs endAddr B n (some segment) addr be tr s hlt hres
          herasable']
        exact ih s s.«end» _ _ (by omega) (by omega) hsmem (by omega)

/-- Counterexample for C3 as stated: on the sorted, non-overlapping map
`[0,16) ∪ [32,48)` (sector size 16) the call `erase(0, 48)` never
terminates.  After erasing the single sector of the first segment the
cursor reaches the gap at 16, `getSegment` yields `null`, and the skip
branch sets `addr = segment?.end ?? 0 = 0`, sending the loop back to the
start: the cursor does not strictly increase, and no fuel (here 100,
far beyond the claimed `(endAddr - addr) / sectorSize = 3` bound)
completes the loop. -/
theorem c3_counterexample : erase (some gapMap) 0 48 100 = none := rfl

/-- C3 amended: with positive sector sizes and — the hypothesis the gap
counterexample forces — every address of the sector-aligned span lying in
some segment, the erase loop terminates within `endAddr - addr` iterations:
each iteration either skips a whole segment or advances to the end of the
sector containing the cursor, both strict increases. -/
theorem c3_erase_terminates (segs : List DFUseMemorySegment)
    (startAddr length : Int) (seg0 segE : DFUseMemorySegment) (fuel : Nat)
    (hss : ∀ s ∈ segs, 0 < s.sectorSize)
    (hs0 : findSegment segs startAddr = some seg0)
    (hsE : findSegment segs (startAddr + length - 1) = some segE)
    (hcov : ∀ x : Int, sectorStart seg0 startAddr ≤ x →
      x < sectorEnd segE (startAddr + length - 1) → (findSegment segs x).isSome)
    (hfuel : (sectorEnd segE (startAddr + length - 1)
        - sectorStart seg0 startAddr).toNat ≤ fuel) :
    erase (some segs) startAddr length fuel ≠ none := by
  obtain ⟨hm0, h01, h02⟩ := findSegment_eq_some hs0
  have hss0 := hss seg0 hm0
  obtain ⟨hb0le, hb0lt, -, hb0start, -⟩ := sectorStart_bounds seg0 startAddr hss0 h01
  have htot := eraseLoop_total segs (sectorStart seg0 startAddr)
    (sectorEnd segE (startAddr + length - 1))
    (sectorEnd segE (startAddr + length - 1) - sectorStart seg0 startAddr) hss hcov
    fuel seg0 (sectorStart seg0 startAddr) 0
    (if sectorEnd segE (startAddr + length - 1) - sectorStart seg0 startAddr > 0 then
      [DfuEvent.progress 0
        (sectorEnd segE (startAddr + length - 1) - sectorStart seg0 startAddr)]
     else []) hfuel (le_refl _) hm0 hb0start
  obtain ⟨r, hr⟩ := Option.isSome_iff_exists.mp htot
  simp only [erase, hs0, hsE, hr]
  exact Option.noConfusion

/-- Witness for the amended C3 on the non-erasable-then-erasable map:
`erase(8, 80)` spans `[0, 96)` and terminates within fuel 96. -/
theorem c3_witness : erase (some neMap) 8 80 96 ≠ none := by
  apply c3_erase_terminates neMap 8 80 neSeg1 neSeg2 96 (by decide) (by decide) (by decide)
  · intro x h1 h2
    rw [show sectorStart neSeg1 8 = 0 from rfl] at h1
    rw [show sectorEnd neSeg2 (8 + 80 - 1) = 96 from rfl] at h2
    by_cases hx : x < 32
    · rw [@findSegment_of_mem neMap x neSeg1 (by decide)
        (show neSeg1 ∈ neMap by decide)
        (by rw [show neSeg1.start = 0 from rfl]; omega)
        (by rw [show neSeg1.«end» = 32 from rfl]; omega)]
      rfl
    · rw [@findSegment_of_mem neMap x neSeg2 (by decide)
        (show neSeg2 ∈ neMap by decide)
        (by rw [show neSeg2.start = 32 from rfl]; omega)
        (by rw [show neSeg2.«end» = 96 from rfl]; omega)]
      rfl
  · decide

/-- Counterexample for C2 as stated: on the sorted, non-overlapping,
positive-sector-size map `[0,24) ∪ [24,40)` (sector size 16 — which does
not divide the first segment's length 24), `erase(0, 40)` issues sectors at
0, 16 and then, after re-resolving into the second segment, at 24 (its
sector base), and the cumulative progress overshoots: the final reported
value is 48, not the full span length `endAddr - sectorStart(startAddr)
= 40 - 0 = 40` the claim asserts. -/
theorem c2_counterexample :
    sectorEnd ⟨24, 40, 16, true, true, true⟩ (0 + 40 - 1)
        - sectorStart ⟨0, 24, 16, true, true, true⟩ 0 = 40 ∧
    finalProgress ((resultTrace (erase (some ovMap) 0 40 100)).getD [])
      = some 48 ∧
    (48 : Int) ≠ 40 :=
  ⟨rfl, rfl, by decide⟩

/-- C2 amended: with the data-model invariants, sector sizes dividing their
segments' lengths and the sector-aligned span fully covered by segments —
the hypotheses the overshoot and gap counterexamples force — `erase`
completes, issues `ERASE_SECTOR` only for sectors of erasable segments
(zero commands for non-erasable bytes), issues exactly one command per
sector of the erasable portion overlapped by the aligned span
(`expectedEraseCount`), and the final reported cumulative progress equals
the full span length `endAddr - sectorStart(startAddr)`. -/
theorem c2_erase_commands (segs : List DFUseMemorySegment)
    (startAddr length : Int) (seg0 segE : DFUseMemorySegment) (fuel : Nat)
    (hpw : SortedSegments segs)
    (hne : ∀ s ∈ segs, s.start < s.«end»)
    (hss : ∀ s ∈ segs, 0 < s.sectorSize)
    (hdvd : ∀ s ∈ segs, s.sectorSize ∣ (s.«end» - s.start))
    (hlen : 1 ≤ length)
    (hs0 : findSegment segs startAddr = some seg0)
    (hsE : findSegment segs (startAddr + length - 1) = some segE)
    (hcov : ∀ x : Int, sectorStart seg0 startAddr ≤ x →
      x < sectorEnd segE (startAddr + length - 1) → (findSegment segs x).isSome)
    (hfuel : (sectorEnd segE (startAddr + length - 1)
        - sectorStart seg0 startAddr).toNat ≤ fuel) :
    resultTrace (erase (some segs) startAddr length fuel) ≠ none ∧
    countEraseCmds ((resultTrace (erase (some segs) startAddr length fuel)).getD [])
      = expectedEraseCount segs (sectorStart seg0 startAddr)
          (sectorEnd segE (startAddr + length - 1)) ∧
    erasesOnlyErasable segs
      ((resultTrace (erase (some segs) startAddr length fuel)).getD []) = true ∧
    finalProgress ((resultTrace (erase (some segs) startAddr length fuel)).getD [])
      = some (sectorEnd segE (startAddr + length - 1) - sectorStart seg0 startAddr) := by
  obtain ⟨hm0, h01, h02⟩ := findSegment_eq_some hs0
  obtain ⟨hmE, hE1, hE2⟩ := findSegment_eq_some hsE
  have hss0 := hss seg0 hm0
  have hssE := hss segE hmE
  obtain ⟨hb0le, hb0lt, -, hb0start, hb0dvd⟩ := sectorStart_bounds seg0 startAddr hss0 h01
  obtain ⟨hbEle, hbElt, hbEend, hbEstart, hbEdvd⟩ :=
    sectorStart_bounds segE (startAddr + length - 1) hssE hE1
  have hEend : sectorEnd segE (startAddr + length - 1) ≤ segE.«end» := by
    have hd : segE.sectorSize
        ∣ (segE.«end» - sectorStart segE (startAddr + length - 1)) := by
      have h3 : segE.«end» - sectorStart segE (startAddr + length - 1)
          = (segE.«end» - segE.start)
            - (sectorStart segE (startAddr + length - 1) - segE.start) := by ring
      rw [h3]
      exact dvd_sub (hdvd segE hmE) hbEdvd
    have := Int.le_of_dvd (by omega) hd
    omega
  have hend : ∃ t ∈ segs, t.start ≤ sectorEnd segE (startAddr + length - 1) - 1 ∧
      sectorEnd segE (startAddr + length - 1) - 1 < t.«end» ∧
      t.sectorSize ∣ (sectorEnd segE (startAddr + length - 1) - t.start) := by
    refine ⟨segE, hmE, by omega, by omega, ?_⟩
    have h3 : sectorEnd segE (startAddr + length - 1) - segE.start
        = (sectorStart segE (startAddr + length - 1) - segE.start)
          + segE.sectorSize := by omega
    rw [h3]
    exact dvd_add hbEdvd dvd_rfl
  have halign0 : ∀ u ∈ segs, u.start ≤ sectorStart seg0 startAddr →
      sectorStart seg0 startAddr < u.«end» →
      u.sectorSize ∣ (sectorStart seg0 startAddr - u.start) := by
    intro u hu hu1 hu2
    have hu0 : u = seg0 :=
      containing_unique hpw hu hm0 hu1 hu2 hb0start (by omega)
    subst hu0
    exact hb0dvd
  have hBpos : sectorEnd segE (startAddr + length - 1)
      - sectorStart seg0 startAddr > 0 := by omega
  obtain ⟨tr', hloop, hcount, honly, hprog, -⟩ :=
    eraseLoop_invariant segs (sectorStart seg0 startAddr)
      (sectorEnd segE (startAddr + length - 1)) hpw hne hss hdvd hcov hend
      fuel seg0 (sectorStart seg0 startAddr) 0
      [DfuEvent.progress 0
        (sectorEnd segE (startAddr + length - 1) - sectorStart seg0 startAddr)]
      hfuel (le_refl _) hm0 hb0start halign0 (by omega)
  have hform : erase (some segs) startAddr length fuel
      = some (.ok ([DfuEvent.progress 0
          (sectorEnd segE (startAddr + length - 1) - sectorStart seg0 startAddr)]
          ++ tr')) := by
    simp only [erase, hs0, hsE]
    rw [if_pos hBpos, hloop]
  rw [hform]
  have hgetD : (resultTrace (some (Except.ok ([DfuEvent.progress 0
      (sectorEnd segE (startAddr + length - 1) - sectorStart seg0 startAddr)]
      ++ tr') : Except WebDFUError (List DfuEvent)))).getD []
      = [DfuEvent.progress 0
          (sectorEnd segE (startAddr + length - 1) - sectorStart seg0 startAddr)]
          ++ tr' := rfl
  refine ⟨by simp [resultTrace], ?_, ?_, ?_⟩
  · rw [hgetD, countEraseCmds_append, hcount]
    have hzero : countEraseCmds [DfuEvent.progress 0
        (sectorEnd segE (startAddr + length - 1) - sectorStart seg0 startAddr)] = 0 := rfl
    omega
  · rw [hgetD, erasesOnly_append, honly]
    rfl
  · rw [hgetD]
    exact finalProgress_append_right (hprog (by omega))

/-- Witness for the amended C2 on the non-erasable `[0,32)` then erasable
`[32,96)` map: `erase(8, 80)` spans `[0, 96)`, issues 4 = (96-32)/16
`ERASE_SECTOR` commands (all inside the erasable segment, none for the
non-erasable 32 bytes) and reports final progress 96 = the whole span. -/
theorem c2_witness :
    resultTrace (erase (some neMap) 8 80 96) ≠ none ∧
    countEraseCmds ((resultTrace (erase (some neMap) 8 80 96)).getD [])
      = expectedEraseCount neMap (sectorStart neSeg1 8) (sectorEnd neSeg2 (8 + 80 - 1)) ∧
    erasesOnlyErasable neMap ((resultTrace (erase (some neMap) 8 80 96)).getD []) = true ∧
    finalProgress ((resultTrace (erase (some neMap) 8 80 96)).getD [])
      = some (sectorEnd neSeg2 (8 + 80 - 1) - sectorStart neSeg1 8) := by
  apply c2_erase_commands neMap 8 80 neSeg1 neSeg2 96 (by decide) (by decide) (by decide)
    (by decide) (by decide) (by decide) (by decide)
  · intro x h1 h2
    rw [show sectorStart neSeg1 8 = 0 from rfl] at h1
    rw [show sectorEnd neSeg2 (8 + 80 - 1) = 96 from rfl] at h2
    by_cases hx : x < 32
    · rw [@findSegment_of_mem neMap x neSeg1 (by decide)
        (show neSeg1 ∈ neMap by decide)
        (by rw [show neSeg1.start = 0 from rfl]; omega)
        (by rw [show neSeg1.«end» = 32 from rfl]; omega)]
      rfl
    · rw [@findSegment_of_mem neMap x neSeg2 (by decide)
        (show neSeg2 ∈ neMap by decide)
        (by rw [show neSeg2.start = 32 from rfl]; omega)
        (by rw [show neSeg2.«end» = 96 from rfl]; omega)]
      rfl
  · decide
